import Mathlib

/-!
Verification development for the nix-query metadata normalization layer
(src/nix.rs, src/proc.rs).  The Rust code is shallowly embedded: JSON values
become an inductive `Json`, serde deserializers become functions
`Json → Option α` (with serde's untagged unions as ordered `<|>` attempts),
the console renderers become `String`-producing functions with terminal
styling erased, and the bulk-listing text rewriter becomes functions over
`List Char`.
-/

/-- Model of a JSON value (serde_json::Value), with numbers as integers and
objects as association lists in document order. -/
inductive Json where
  | null : Json
  | bool : Bool → Json
  | num : Int → Json
  | str : String → Json
  | arr : List Json → Json
  | obj : List (String × Json) → Json

/-- Field lookup in a JSON object, first occurrence wins (serde reads the
fields of an object in document order; well-formed inputs have no
duplicate keys). -/
def jlookup (key : String) : List (String × Json) → Option Json
  | [] => none
  | (k, v) :: rest => if k = key then some v else jlookup key rest

/-- Deserializing a `String`: only a JSON string matches. -/
def decodeString : Json → Option String
  | .str s => some s
  | _ => none

/-- Deserializing an `Option String` struct field: a missing field and an
explicit `null` both give `none`; a string gives `some`; any other JSON
type is a failure (serde `Option<String>`). -/
def optStringField (fields : List (String × Json)) (key : String) : Option (Option String) :=
  match jlookup key fields with
  | none => some none
  | some .null => some none
  | some (.str s) => some (some s)
  | some _ => none

/-- Deserializing a required `String` struct field: the field must be present
and hold a JSON string. -/
def reqStringField (fields : List (String × Json)) (key : String) : Option String :=
  match jlookup key fields with
  | some (.str s) => some s
  | _ => none

/-- Deserializing each element of a JSON array with `f`, failing if any
element fails (serde `Vec<T>`). -/
def decodeElems (f : Json → Option α) : List Json → Option (List α)
  | [] => some []
  | x :: xs =>
    match f x, decodeElems f xs with
    | some a, some rest => some (a :: rest)
    | _, _ => none

/-- Embeds `fn true_() -> bool { true }` (src/nix.rs line 170), the serde
default for the `free` and `available` fields. -/
def true_ : Bool := true

/-- Embeds struct `FullLicense` (src/nix.rs lines 20-29). -/
structure FullLicense where
  full_name : String
  short_name : String
  spdx_id : Option String
  url : Option String
  free : Bool
deriving DecidableEq

/-- Deserializer for `FullLicense` (serde derive, camelCase renames):
`fullName` and `shortName` required strings, `spdxId` and `url` optional
strings, `free` a bool defaulting to `true_` when absent.  Only a JSON
object matches; unknown fields are ignored. -/
def FullLicense.decode : Json → Option FullLicense
  | .obj fields => do
    let fn ← reqStringField fields "fullName"
    let sn ← reqStringField fields "shortName"
    let spdx ← optStringField fields "spdxId"
    let u ← optStringField fields "url"
    let fr ← match jlookup "free" fields with
      | none => some true_
      | some (.bool b) => some b
      | some _ => none
    some ⟨fn, sn, spdx, u, fr⟩
  | _ => none

/-- Embeds struct `NamedLicense` (src/nix.rs lines 105-109). -/
structure NamedLicense where
  full_name : String
deriving DecidableEq

/-- Deserializer for `NamedLicense`: an object with a required string field
`fullName`. -/
def NamedLicense.decode : Json → Option NamedLicense
  | .obj fields => (reqStringField fields "fullName").map NamedLicense.mk
  | _ => none

/-- Embeds struct `UrlLicense` (src/nix.rs lines 111-115). -/
structure UrlLicense where
  url : String
deriving DecidableEq

/-- Deserializer for `UrlLicense`: an object with a required string field
`url`. -/
def UrlLicense.decode : Json → Option UrlLicense
  | .obj fields => (reqStringField fields "url").map UrlLicense.mk
  | _ => none

/-- Embeds enum `License` (src/nix.rs lines 117-125). -/
inductive License where
  | Id : String → License
  | Full : FullLicense → License
  | FullVec : List FullLicense → License
  | Named : NamedLicense → License
  | Url : UrlLicense → License
deriving DecidableEq

/-- Deserializer for the untagged `License` enum: serde tries the variants in
declaration order Id, Full, FullVec, Named, Url and keeps the first
structural match. -/
def License.decode (j : Json) : Option License :=
  (decodeString j).map License.Id <|>
  (FullLicense.decode j).map License.Full <|>
  (match j with
   | .arr xs => (decodeElems FullLicense.decode xs).map License.FullVec
   | _ => none) <|>
  (NamedLicense.decode j).map License.Named <|>
  (UrlLicense.decode j).map License.Url

/-- Embeds `ConsoleFormatFullLicense::fmt_unfree` (src/nix.rs lines 40-71),
with the terminal styling of `style("unfree").bold().red()` and of the URL
erased to the plain text. -/
def fmt_unfree (license : FullLicense) : String :=
  let has_full_name := license.full_name ≠ "Unfree"
  let has_short_name := license.short_name ≠ "unfree"
  let s1 := if has_full_name then license.full_name ++ " (" ++ "unfree" else "unfree"
  let parenthetical := has_full_name
  let s2 :=
    if has_short_name then
      s1 ++ (if parenthetical then "; " else " (") ++ license.short_name ++ ")"
    else if parenthetical then s1 ++ ")" else s1
  match license.url with
  | some u => s2 ++ " " ++ u
  | none => s2

/-- Embeds `ConsoleFormatFullLicense::fmt_free` (src/nix.rs lines 73-92),
styling erased: prefer the SPDX id; else the short name, additionally
writing the full name in parentheses when no URL is present; finally
append the URL when present. -/
def fmt_free (license : FullLicense) : String :=
  let s :=
    match license.spdx_id with
    | some spdx => spdx
    | none =>
      license.short_name ++
        (if license.url = none then " (" ++ license.full_name ++ ")" else "")
  match license.url with
  | some u => s ++ " " ++ u
  | none => s

/-- Embeds `Display for ConsoleFormatFullLicense` (src/nix.rs lines 95-103):
dispatch on the `free` flag. -/
def FullLicense.console_fmt (l : FullLicense) : String :=
  if l.free then fmt_free l else fmt_unfree l

/-- Embeds `write_licenses` (src/nix.rs lines 137-154): all but the last
license are each followed by a newline and nine spaces of alignment. -/
def write_licenses (licenses : List FullLicense) : String :=
  match licenses with
  | [] => ""
  | [l] => l.console_fmt
  | ls =>
    ((ls.take (ls.length - 1)).map FullLicense.console_fmt).foldl
      (fun acc s => acc ++ s ++ "\n         ") ""
    ++ (match ls.getLast? with
        | some l => l.console_fmt
        | none => "")

/-- Embeds `Display for ConsoleFormatLicense` (src/nix.rs lines 158-168),
styling erased. -/
def License.render : License → String
  | .Id s => s
  | .Named n => n.full_name
  | .Url u => u.url
  | .Full l => l.console_fmt
  | .FullVec ls => write_licenses ls

/-- The C1 scenario object: at least fullName and shortName, nothing else. -/
def c1fields : List (String × Json) :=
  [("fullName", .str "GNU General Public License v3.0"), ("shortName", .str "gpl3")]

/-- C1: License deserialization resolves the untagged union by attempting the
variants in the fixed order PlainId, FullRecord, FullRecordList, NamedOnly,
UrlOnly and accepting the first structural match: every bare JSON string
decodes to PlainId, and every object containing the fields fullName and
shortName (as strings) with spdxId, url and free absent decodes to
FullRecord — not NamedOnly or UrlOnly — with the absent fields defaulted. -/
theorem c1_license_untagged_order :
    (∀ s : String, License.decode (.str s) = some (.Id s)) ∧
    (∀ (fields : List (String × Json)) (fn sn : String),
      jlookup "fullName" fields = some (.str fn) →
      jlookup "shortName" fields = some (.str sn) →
      jlookup "spdxId" fields = none →
      jlookup "url" fields = none →
      jlookup "free" fields = none →
      License.decode (.obj fields) = some (.Full ⟨fn, sn, none, none, true⟩)) := by
  constructor
  · intro s
    simp [License.decode, decodeString]
  · intro fields fn sn hfn hsn hspdx hurl hfree
    simp [License.decode, decodeString, FullLicense.decode, reqStringField,
      optStringField, hfn, hsn, hspdx, hurl, hfree, true_]

/-- Witness for C1: the two parts of the theorem applied at a bare string and
at a concrete two-field object. -/
theorem c1_license_untagged_order_witness :
    License.decode (.str "MIT") = some (.Id "MIT") ∧
    License.decode (.obj c1fields) =
      some (.Full ⟨"GNU General Public License v3.0", "gpl3", none, none, true⟩) :=
  ⟨c1_license_untagged_order.1 "MIT",
   c1_license_untagged_order.2 c1fields "GNU General Public License v3.0" "gpl3"
     rfl rfl rfl rfl rfl⟩

/-- The C9 scenario license object. -/
def c9json : Json :=
  .obj [("fullName", .str "GNU General Public License v3.0"),
        ("shortName", .str "gpl3"),
        ("free", .bool true)]

/-- C9: the license object with fullName "GNU General Public License v3.0",
shortName "gpl3", free true, and no spdxId and no url decodes to a free
FullRecord and renders (styling erased) as the short name followed by the
full name in parentheses: "gpl3 (GNU General Public License v3.0)". -/
theorem c9_free_license_render :
    License.decode c9json =
      some (.Full ⟨"GNU General Public License v3.0", "gpl3", none, none, true⟩) ∧
    License.render (.Full ⟨"GNU General Public License v3.0", "gpl3", none, none, true⟩) =
      "gpl3 (GNU General Public License v3.0)" := by
  constructor
  · decide
  · rfl

/-- Suffix appended by the unfree renderer for the URL: a space and the URL
when present, nothing otherwise. -/
def urlSuffix (l : FullLicense) : String :=
  match l.url with
  | some u => " " ++ u
  | none => ""

/-- C10: when rendering a non-free FullRecord license, a fullName equal to the
literal "Unfree" and a shortName equal to the literal "unfree" are each
treated as absent and omitted; for every other non-free license with both
names present the rendered text (styling erased) is the full name, then a
parenthetical of the marker "unfree", a semicolon and the short name, with
the URL appended when present. -/
theorem c10_unfree_license_render (l : FullLicense) (hfree : l.free = false) :
    (l.full_name = "Unfree" → l.short_name = "unfree" →
      l.console_fmt = "unfree" ++ urlSuffix l) ∧
    (l.full_name = "Unfree" → l.short_name ≠ "unfree" →
      l.console_fmt = "unfree (" ++ l.short_name ++ ")" ++ urlSuffix l) ∧
    (l.full_name ≠ "Unfree" → l.short_name = "unfree" →
      l.console_fmt = l.full_name ++ " (unfree)" ++ urlSuffix l) ∧
    (l.full_name ≠ "Unfree" → l.short_name ≠ "unfree" →
      l.console_fmt = l.full_name ++ " (unfree; " ++ l.short_name ++ ")" ++ urlSuffix l) := by
  refine ⟨?_, ?_, ?_, ?_⟩ <;> intro h1 h2 <;>
    cases hu : l.url <;>
    simp only [FullLicense.console_fmt, hfree, fmt_unfree, h1, h2, urlSuffix, hu,
      Bool.false_eq_true, if_false, ne_eq, not_true_eq_false, not_false_eq_true,
      if_true, ite_true, ite_false] <;>
    (apply String.ext; simp only [String.data_append, List.append_assoc]) <;> rfl

/-- Witness for C10: the four cases of the theorem at concrete licenses. -/
theorem c10_unfree_license_render_witness :
    FullLicense.console_fmt ⟨"Unfree", "unfree", none, none, false⟩ = "unfree" ∧
    FullLicense.console_fmt ⟨"Unfree", "acme", none, none, false⟩ = "unfree (acme)" ∧
    FullLicense.console_fmt ⟨"Acme EULA", "unfree", none, none, false⟩ = "Acme EULA (unfree)" ∧
    FullLicense.console_fmt ⟨"Acme EULA", "acme", none, some "https://acme.example", false⟩ =
      "Acme EULA (unfree; acme) https://acme.example" :=
  ⟨(c10_unfree_license_render ⟨"Unfree", "unfree", none, none, false⟩ rfl).1
      rfl rfl,
   (c10_unfree_license_render ⟨"Unfree", "acme", none, none, false⟩ rfl).2.1
      rfl (by decide),
   (c10_unfree_license_render ⟨"Acme EULA", "unfree", none, none, false⟩ rfl).2.2.1
      (by decide) rfl,
   (c10_unfree_license_render ⟨"Acme EULA", "acme", none, some "https://acme.example", false⟩
      rfl).2.2.2 (by decide) (by decide)⟩

/-- Embeds struct `NixPath` (src/nix.rs lines 174-179). -/
structure NixPath where
  path : String
  line : Nat
deriving DecidableEq

/-- Embeds `FromStr for NixPath` (src/nix.rs lines 194-207): split the string
on the first colon, everything before it is the path, the next colon-field
must parse as an unsigned integer; failure otherwise.  A split always
yields a first field, so failure arises from a missing second field or a
non-numeric second field. -/
def NixPath.from_str (s : String) : Option NixPath :=
  match s.split (· = ':') with
  | [] => none
  | [_] => none
  | path :: lineStr :: _ => (lineStr.toNat?).map (fun n => ⟨path, n⟩)

/-- Deserializer for `NixPath` (serde `try_from = "String"`): deserialize a
JSON string, then parse it. -/
def NixPath.decode : Json → Option NixPath
  | .str s => NixPath.from_str s
  | _ => none

/-- Embeds struct `Key` (src/nix.rs lines 217-221). -/
structure Key where
  longkeyid : String
  fingerprint : String
deriving DecidableEq

/-- Deserializer for `Key`: both fields required strings, no rename. -/
def Key.decode : Json → Option Key
  | .obj fields => do
    let l ← reqStringField fields "longkeyid"
    let f ← reqStringField fields "fingerprint"
    some ⟨l, f⟩
  | _ => none

/-- Embeds struct `MaintainerInfo` (src/nix.rs lines 223-232). -/
structure MaintainerInfo where
  name : Option String
  email : String
  github : Option String
  github_id : Option Nat
  keys : List Key
deriving DecidableEq

/-- Deserializer for `MaintainerInfo` (camelCase renames): `email` is a
required string; `name`, `github`, `githubId` are optional; `keys`
defaults to the empty list when absent. -/
def MaintainerInfo.decode : Json → Option MaintainerInfo
  | .obj fields => do
    let n ← optStringField fields "name"
    let e ← reqStringField fields "email"
    let g ← optStringField fields "github"
    let gid ← match jlookup "githubId" fields with
      | none => some none
      | some .null => some none
      | some (.num i) => if 0 ≤ i then some (some i.toNat) else none
      | some _ => none
    let ks ← match jlookup "keys" fields with
      | none => some []
      | some (.arr xs) => decodeElems Key.decode xs
      | some _ => none
    some ⟨n, e, g, gid, ks⟩
  | _ => none

/-- Embeds enum `Maintainer` (src/nix.rs lines 234-239). -/
inductive Maintainer where
  | Name : String → Maintainer
  | Info : MaintainerInfo → Maintainer
deriving DecidableEq

/-- Deserializer for the untagged `Maintainer` enum: a bare string first,
then any structurally matching `MaintainerInfo` object. -/
def Maintainer.decode (j : Json) : Option Maintainer :=
  (decodeString j).map Maintainer.Name <|> (MaintainerInfo.decode j).map Maintainer.Info

/-- Embeds enum `Platforms` (src/nix.rs lines 241-247). -/
inductive Platforms where
  | Normal : List String → Platforms
  | Weird : List (List String) → Platforms
deriving DecidableEq

/-- Deserializer for a flat list of strings (serde `Vec<String>`). -/
def decodeStringList : Json → Option (List String)
  | .arr xs => decodeElems decodeString xs
  | _ => none

/-- Deserializer for a list of lists of strings (serde `Vec<Vec<String>>`). -/
def decodeStringListList : Json → Option (List (List String))
  | .arr xs => decodeElems decodeStringList xs
  | _ => none

/-- Deserializer for the untagged `Platforms` enum: `Normal` first, then
`Weird`. -/
def Platforms.decode (j : Json) : Option Platforms :=
  (decodeStringList j).map Platforms.Normal <|> (decodeStringListList j).map Platforms.Weird

/-- Embeds `From<Platforms> for Vec<String>` (src/nix.rs lines 249-256): the
weird nested shape is flattened one level in encounter order. -/
def Platforms.intoVec : Platforms → List String
  | .Normal v => v
  | .Weird vs => vs.flatten

/-- Embeds `deserialize_platforms` (src/nix.rs lines 258-263). -/
def deserialize_platforms (j : Json) : Option (List String) :=
  (Platforms.decode j).map Platforms.intoVec

/-- Embeds struct `NixMeta` (src/nix.rs lines 265-282). -/
structure NixMeta where
  available : Bool
  broken : Bool
  description : Option String
  long_description : Option String
  homepage : Option String
  license : Option License
  name : Option String
  outputs_to_install : List String
  platforms : List String
  position : Option NixPath
  priority : Option Int
  maintainers : List Maintainer
deriving DecidableEq

/-- Deserializer for an `Option License` field: missing or null is none. -/
def optLicenseField (fields : List (String × Json)) : Option (Option License) :=
  match jlookup "license" fields with
  | none => some none
  | some .null => some none
  | some j => (License.decode j).map some

/-- Deserializer for `NixMeta` (camelCase renames, container-level `default`):
every missing field takes its default (`available` uses the field-level
default `true_`, all others the derived `Default`: false, none, empty);
a present field of the wrong JSON type is a failure.  Only an object
matches. -/
def NixMeta.decode : Json → Option NixMeta
  | .obj fields => do
    let av ← match jlookup "available" fields with
      | none => some true_
      | some (.bool b) => some b
      | some _ => none
    let br ← match jlookup "broken" fields with
      | none => some false
      | some (.bool b) => some b
      | some _ => none
    let de ← optStringField fields "description"
    let ld ← optStringField fields "longDescription"
    let hp ← optStringField fields "homepage"
    let li ← optLicenseField fields
    let nm ← optStringField fields "name"
    let oti ← match jlookup "outputsToInstall" fields with
      | none => some []
      | some j => decodeStringList j
    let pl ← match jlookup "platforms" fields with
      | none => some []
      | some j => deserialize_platforms j
    let pos ← match jlookup "position" fields with
      | none => some none
      | some .null => some none
      | some j => (NixPath.decode j).map some
    let pr ← match jlookup "priority" fields with
      | none => some none
      | some .null => some none
      | some (.num i) => some (some i)
      | some _ => none
    let ms ← match jlookup "maintainers" fields with
      | none => some []
      | some (.arr xs) => decodeElems Maintainer.decode xs
      | some _ => none
    some ⟨av, br, de, ld, hp, li, nm, oti, pl, pos, pr, ms⟩
  | _ => none

/-- Embeds struct `NixInfo` (src/nix.rs lines 284-293). -/
structure NixInfo where
  name : String
  pname : String
  version : String
  system : String
  meta : NixMeta
  attr : Option String
deriving DecidableEq

/-- Deserializer for `NixInfo`: `name`, `pname`, `version`, `system` are
required strings, `meta` a required `NixMeta` object, `attr` an optional
string.  Nothing constrains the strings to be non-empty. -/
def NixInfo.decode : Json → Option NixInfo
  | .obj fields =>
    match reqStringField fields "name" with
    | none => none
    | some nm =>
      match reqStringField fields "pname" with
      | none => none
      | some pn =>
        match reqStringField fields "version" with
        | none => none
        | some ve =>
          match reqStringField fields "system" with
          | none => none
          | some sy =>
            match (jlookup "meta" fields).bind NixMeta.decode with
            | none => none
            | some me =>
              match optStringField fields "attr" with
              | none => none
              | some at_ => some ⟨nm, pn, ve, sy, me, at_⟩
  | _ => none

/-- Deserializing every value of a JSON object as a `NixInfo`, keeping the
keys in document order. -/
def decodeAttrs : List (String × Json) → Option (List (String × NixInfo))
  | [] => some []
  | (k, v) :: rest =>
    match NixInfo.decode v, decodeAttrs rest with
    | some info, some tail => some ((k, info) :: tail)
    | _, _ => none

/-- Deserializer for the transparent `AllNixInfo` wrapper (src/nix.rs lines
301-305): a JSON object mapping attribute paths to `NixInfo` records,
modelled as an association list in document order. -/
def AllNixInfo.decode : Json → Option (List (String × NixInfo))
  | .obj fields => decodeAttrs fields
  | _ => none

/-- Models the serde_json deserialization error carried by
`CommandError::De`: either the text is not valid JSON, or the JSON value
does not match the expected shape. -/
inductive DeError where
  | malformed : DeError
  | shape : DeError
deriving DecidableEq

/-- Embeds enum `CommandError` (src/proc.rs lines 6-13), with payloads not
relevant to the claims reduced to plain constructors. -/
inductive CommandError where
  | Io : CommandError
  | Stderr : String → CommandError
  | De : DeError → CommandError
  | Encoding : CommandError
  | ExitStatus : Int → CommandError
deriving DecidableEq

/-- Embeds enum `NixQueryError` (src/nix.rs lines 379-384). -/
inductive NixQueryError where
  | Command : CommandError → NixQueryError
  | Empty : NixQueryError
deriving DecidableEq

/-- Models `serde_json::from_str::<AllNixInfo>`: the textual JSON parse is
abstracted into an `Option Json` supplied by the caller (`none` meaning
the text is not well-formed JSON); a parse failure or a shape mismatch is
the deserialization error that `nix_query` wraps as `Command (De _)`. -/
def from_str_allNixInfo (parsed : Option Json) : Except DeError (List (String × NixInfo)) :=
  match parsed with
  | none => .error .malformed
  | some j =>
    match AllNixInfo.decode j with
    | none => .error .shape
    | some attrs => .ok attrs

/-- Embeds `nix_query` (src/nix.rs lines 392-409) over the collaborator
boundary: `cmd` is the outcome of `proc::run_cmd_stdout` for the nix-env
invocation and `parse` models serde_json's textual parser.  A command
failure propagates as `Command`; a parse or shape failure becomes
`Command (De _)`; the first entry of the decoded map is taken
(`.iter().next()`), `Empty` is returned when there is none, and otherwise
the entry's key is attached as the record's `attr`. -/
def nix_query (cmd : Except CommandError String) (parse : String → Option Json) :
    Except NixQueryError NixInfo :=
  match cmd with
  | .error e => .error (.Command e)
  | .ok stdout =>
    match from_str_allNixInfo (parse stdout) with
    | .error e => .error (.Command (.De e))
    | .ok attrs =>
      match attrs.head? with
      | none => .error .Empty
      | some (attr, info) => .ok { info with attr := some attr }

/-- C8: when the tool output decodes to well-formed JSON holding zero entries
the query fails with the Empty error; Empty is a different value from
every Command error, in particular from every decode failure; malformed
JSON yields a decode failure wrapped in Command, never Empty; and Empty
arises only from a successful zero-entry decode. -/
theorem c8_empty_vs_decode_failure :
    (∀ (s : String) (parse : String → Option Json) (j : Json),
      parse s = some j → AllNixInfo.decode j = some [] →
      nix_query (.ok s) parse = .error .Empty) ∧
    (∀ (s : String) (parse : String → Option Json),
      parse s = none →
      nix_query (.ok s) parse = .error (.Command (.De .malformed))) ∧
    (∀ e : CommandError, NixQueryError.Empty ≠ .Command e) ∧
    (∀ (s : String) (parse : String → Option Json),
      nix_query (.ok s) parse = .error .Empty →
      ∃ j, parse s = some j ∧ AllNixInfo.decode j = some []) := by
  refine ⟨?_, ?_, ?_, ?_⟩
  · intro s parse j hp hd
    simp [nix_query, from_str_allNixInfo, hp, hd]
  · intro s parse hp
    simp [nix_query, from_str_allNixInfo, hp]
  · intro e h
    cases h
  · intro s parse h
    cases hp : parse s with
    | none => simp [nix_query, from_str_allNixInfo, hp] at h
    | some j =>
      cases hd : AllNixInfo.decode j with
      | none => simp [nix_query, from_str_allNixInfo, hp, hd] at h
      | some attrs =>
        cases attrs with
        | nil => exact ⟨j, rfl, hd⟩
        | cons kv rest => simp [nix_query, from_str_allNixInfo, hp, hd] at h

/-- Witness for C8 at a concrete empty result and a concrete parse failure. -/
theorem c8_empty_vs_decode_failure_witness :
    nix_query (.ok "{}") (fun _ => some (.obj [])) = .error .Empty ∧
    nix_query (.ok "nonsense") (fun _ => none) = .error (.Command (.De .malformed)) :=
  ⟨c8_empty_vs_decode_failure.1 "{}" (fun _ => some (.obj [])) (.obj []) rfl rfl,
   c8_empty_vs_decode_failure.2.1 "nonsense" (fun _ => none) rfl⟩

/-- The meta record all of whose fields take their defaults. -/
def defaultMeta : NixMeta :=
  ⟨true, false, none, none, none, none, none, [], [], none, none, []⟩

/-- The C3 counterexample record: all four required strings empty. -/
def c3json : Json :=
  .obj [("name", .str ""), ("pname", .str ""), ("version", .str ""),
        ("system", .str ""), ("meta", .obj [])]

/-- C3 counterexample: deserialization succeeds although name, pname, version
and system are all the empty string, so the claimed non-emptiness
invariant is not enforced by the code. -/
theorem c3_nonempty_counterexample :
    NixInfo.decode c3json = some ⟨"", "", "", "", defaultMeta, none⟩ := by
  decide

/-- A helper: a successful required-string read means the JSON field is
present and is that string. -/
theorem reqStringField_eq_some (fields : List (String × Json)) (key s : String)
    (h : reqStringField fields key = some s) : jlookup key fields = some (.str s) := by
  unfold reqStringField at h
  split at h
  next heq => cases h; exact heq
  next => cases h

/-- C3 amended: every successfully decoded record draws its name, pname,
version and system verbatim from required string fields of the JSON
object — decoding fails when any of the four is absent or not a string —
but nothing prevents those strings from being empty. -/
theorem c3_required_string_fields (fields : List (String × Json)) (info : NixInfo)
    (h : NixInfo.decode (.obj fields) = some info) :
    jlookup "name" fields = some (.str info.name) ∧
    jlookup "pname" fields = some (.str info.pname) ∧
    jlookup "version" fields = some (.str info.version) ∧
    jlookup "system" fields = some (.str info.system) := by
  unfold NixInfo.decode at h
  cases hnm : reqStringField fields "name" with
  | none => simp [hnm] at h
  | some nm =>
  simp only [hnm] at h
  cases hpn : reqStringField fields "pname" with
  | none => simp [hpn] at h
  | some pn =>
  simp only [hpn] at h
  cases hve : reqStringField fields "version" with
  | none => simp [hve] at h
  | some ve =>
  simp only [hve] at h
  cases hsy : reqStringField fields "system" with
  | none => simp [hsy] at h
  | some sy =>
  simp only [hsy] at h
  cases hme : (jlookup "meta" fields).bind NixMeta.decode with
  | none => simp [hme] at h
  | some me =>
  simp only [hme] at h
  cases hat : optStringField fields "attr" with
  | none => simp [hat] at h
  | some at_ =>
  simp only [hat, Option.some.injEq] at h
  subst h
  exact ⟨reqStringField_eq_some _ _ _ hnm, reqStringField_eq_some _ _ _ hpn,
    reqStringField_eq_some _ _ _ hve, reqStringField_eq_some _ _ _ hsy⟩

/-- Fields of a well-formed record, for the C3 witness. -/
def c3wfields : List (String × Json) :=
  [("name", .str "gzip-1.10"), ("pname", .str "gzip"), ("version", .str "1.10"),
   ("system", .str "x86_64-linux"), ("meta", .obj [])]

/-- Witness for the amended C3 at a concrete record. -/
theorem c3_required_string_fields_witness :
    jlookup "name" c3wfields = some (.str "gzip-1.10") ∧
    jlookup "pname" c3wfields = some (.str "gzip") ∧
    jlookup "version" c3wfields = some (.str "1.10") ∧
    jlookup "system" c3wfields = some (.str "x86_64-linux") :=
  c3_required_string_fields c3wfields
    ⟨"gzip-1.10", "gzip", "1.10", "x86_64-linux", defaultMeta, none⟩ rfl

/-- Encoding of a list of strings as a JSON array of strings. -/
def encStrings (vs : List String) : Json := .arr (vs.map .str)

/-- Encoding of a list of lists of strings as a JSON array of arrays. -/
def encStringss (vss : List (List String)) : Json := .arr (vss.map encStrings)

/-- A helper: decoding an encoded flat string list round-trips. -/
theorem decodeElems_decodeString_map (vs : List String) :
    decodeElems decodeString (vs.map .str) = some vs := by
  induction vs with
  | nil => rfl
  | cons v vs ih => simp [decodeElems, decodeString, ih]

/-- A helper: decodeStringList inverts encStrings. -/
theorem decodeStringList_enc (vs : List String) :
    decodeStringList (encStrings vs) = some vs := by
  simp [decodeStringList, encStrings, decodeElems_decodeString_map]

/-- A helper: element-wise decoding inverts the nested encoding. -/
theorem decodeElems_stringList (vss : List (List String)) :
    decodeElems decodeStringList (vss.map encStrings) = some vss := by
  induction vss with
  | nil => rfl
  | cons vs vss ih => simp [decodeElems, decodeStringList_enc, ih]

/-- C6: platforms normalization is a flattening homomorphism: a list of lists
decodes to the concatenation of its inner lists in encounter order, the
very sequence obtained when the same elements are supplied pre-flattened
as one flat list (empty inner lists contribute nothing). -/
theorem c6_platforms_flatten :
    (∀ vss : List (List String),
      deserialize_platforms (encStringss vss) = some vss.flatten) ∧
    (∀ vs : List String, deserialize_platforms (encStrings vs) = some vs) := by
  constructor
  · intro vss
    cases vss with
    | nil => rfl
    | cons vs rest =>
      have h1 : decodeStringList (.arr (encStrings vs :: rest.map encStrings)) = none := by
        simp [decodeStringList, encStrings, decodeElems, decodeString]
      have h2 := decodeElems_stringList (vs :: rest)
      simp only [List.map_cons] at h2
      simp [deserialize_platforms, Platforms.decode, decodeStringListList, encStringss,
        List.map_cons, h1, h2, Platforms.intoVec]
  · intro vs
    simp [deserialize_platforms, Platforms.decode, decodeStringList_enc, Platforms.intoVec]

/-- The C7 scenario input object. -/
def c7json : Json :=
  .obj [("pkg.broken-thing",
    .obj [("name", .str "x-1.0"), ("pname", .str "x"), ("version", .str "1.0"),
          ("system", .str "x86_64-linux"), ("meta", .obj [("broken", .bool true)])])]

/-- The meta record decoded in the C7 scenario: broken set, everything else
defaulted. -/
def c7meta : NixMeta :=
  ⟨true, true, none, none, none, none, none, [], [], none, none, []⟩

/-- C7: missing optional metadata fields take the documented defaults:
decoding the scenario object succeeds and yields a record whose meta has
broken true, available true despite being absent, empty maintainers and
empty platforms. -/
theorem c7_missing_fields_defaults :
    AllNixInfo.decode c7json =
      some [("pkg.broken-thing", ⟨"x-1.0", "x", "1.0", "x86_64-linux", c7meta, none⟩)] ∧
    c7meta.broken = true ∧ c7meta.available = true ∧
    c7meta.maintainers = [] ∧ c7meta.platforms = [] := by
  exact ⟨by decide, rfl, rfl, rfl, rfl⟩

/-- Embeds the constant `FIELD_DELIMITER` = "    " (four spaces, src/nix.rs
line 18), as a list of characters. -/
def FIELD_DELIMITER : List Char := [' ', ' ', ' ', ' ']

/-- Scanner state while embedding the regex " {2,}": no pending space, one
pending space, or inside a run of two or more spaces. -/
inductive RunState where
  | start : RunState
  | one : RunState
  | many : RunState
deriving DecidableEq

/-- Left-to-right scanner embedding
`Regex::new(" {2,}").replace_all(line, FIELD_DELIMITER)`: each maximal run
of two or more consecutive spaces is replaced by FIELD_DELIMITER and every
other character is copied unchanged. -/
def rewriteGo : RunState → List Char → List Char
  | .start, [] => []
  | .one, [] => [' ']
  | .many, [] => FIELD_DELIMITER
  | .start, c :: cs => if c = ' ' then rewriteGo .one cs else c :: rewriteGo .start cs
  | .one, c :: cs => if c = ' ' then rewriteGo .many cs else ' ' :: c :: rewriteGo .start cs
  | .many, c :: cs =>
    if c = ' ' then rewriteGo .many cs else FIELD_DELIMITER ++ c :: rewriteGo .start cs

/-- Embeds `rewrite_attr_line` (src/nix.rs lines 417-422). -/
def rewrite_attr_line (line : List Char) : List Char := rewriteGo .start line

/-- The Unicode White_Space property, the predicate behind Rust's
`char::is_whitespace`, which `str::trim_end` trims. -/
def isRustWhitespace (c : Char) : Bool :=
  c.toNat = 0x09 || c.toNat = 0x0A || c.toNat = 0x0B || c.toNat = 0x0C ||
  c.toNat = 0x0D || c.toNat = 0x20 || c.toNat = 0x85 || c.toNat = 0xA0 ||
  c.toNat = 0x1680 || (0x2000 ≤ c.toNat && c.toNat ≤ 0x200A) ||
  c.toNat = 0x2028 || c.toNat = 0x2029 || c.toNat = 0x202F ||
  c.toNat = 0x205F || c.toNat = 0x3000

/-- Embeds `str::trim_end`: remove the maximal whitespace suffix.  Stated by
recursion from the left: a character is kept whenever something after it
survives, and otherwise kept exactly when it is not whitespace. -/
def trim_end : List Char → List Char
  | [] => []
  | c :: cs =>
    match trim_end cs with
    | [] => if isRustWhitespace c then [] else [c]
    | rest => c :: rest

/-- Embeds `str::contains("._")`: is there a '.' immediately followed by
'_' anywhere in the list? -/
def containsDU : List Char → Bool
  | [] => false
  | [_] => false
  | c :: d :: rest => (c == '.' && d == '_') || containsDU (d :: rest)

/-- Split inclusively at newline characters, each piece keeping its
terminating newline; the final piece may lack one.  Used to embed
`str::lines`. -/
def splitIncl : List Char → List (List Char)
  | [] => []
  | c :: cs =>
    if c = '\n' then ['\n'] :: splitIncl cs
    else
      match splitIncl cs with
      | [] => [[c]]
      | p :: ps => (c :: p) :: ps

/-- Trim of one split-inclusive piece: remove the trailing newline, and a
carriage return immediately before it, when present. -/
def lineTrim (p : List Char) : List Char :=
  if p.getLast? = some '\n' then
    if p.dropLast.getLast? = some '\r' then p.dropLast.dropLast else p.dropLast
  else p

/-- Embeds `str::lines`: split inclusively at newlines and trim each piece's
line terminator; the final line terminator is optional. -/
def rustLines (l : List Char) : List (List Char) := (splitIncl l).map lineTrim

/-- Embeds `rewrite_attr_lines` (src/nix.rs lines 424-435): drop every line
containing "._", rewrite and right-trim each remaining line, and emit each
followed by one newline. -/
def rewrite_attr_lines (stdout : List Char) : List Char :=
  ((rustLines stdout).filter (fun attr => !containsDU attr)).foldl
    (fun acc line => acc ++ trim_end (rewrite_attr_line line) ++ ['\n']) []

/-- Join a list of lines, each followed by exactly one newline. -/
def joinNL : List (List Char) → List Char
  | [] => []
  | l :: ls => l ++ '\n' :: joinNL ls

/-- A helper: the fold in rewrite_attr_lines is a join of the processed
lines. -/
theorem foldl_append_nl (L : List (List Char)) (acc : List Char) :
    L.foldl (fun acc line => acc ++ trim_end (rewrite_attr_line line) ++ ['\n']) acc
      = acc ++ joinNL (L.map (fun l => trim_end (rewrite_attr_line l))) := by
  induction L generalizing acc with
  | nil => simp [joinNL]
  | cons l ls ih =>
    rw [List.foldl_cons, ih, List.map_cons, joinNL]
    simp [List.append_assoc]

/-- A helper: the rewriter output, written explicitly as the kept lines,
processed, each terminated by one newline. -/
theorem rewrite_attr_lines_eq (stdout : List Char) :
    rewrite_attr_lines stdout =
      joinNL (((rustLines stdout).filter (fun attr => !containsDU attr)).map
        (fun l => trim_end (rewrite_attr_line l))) := by
  unfold rewrite_attr_lines
  simpa using foldl_append_nl _ []

/-- A helper: leading spaces keep the scanner in the in-run state. -/
theorem rewriteGo_many_spaces (k : Nat) (rest : List Char) :
    rewriteGo .many (List.replicate k ' ' ++ rest) = rewriteGo .many rest := by
  induction k with
  | zero => rfl
  | succ k ih => simpa [List.replicate_succ, rewriteGo] using ih

/-- Space-run bookkeeping with `k` spaces pending: all maximal space runs
have length 1 or 4, and no run is still pending at the end of the list. -/
def runsOkFrom : Nat → List Char → Bool
  | k, [] => k == 0
  | k, c :: cs =>
    if c = ' ' then runsOkFrom (k + 1) cs
    else (k == 0 || k == 1 || k == 4) && runsOkFrom 0 cs

/-- Like runsOkFrom but tolerating a trailing run of length 0, 1 or 4 (the
raw scanner output may end in such a run; trim_end removes it). -/
def runsOkWeak : Nat → List Char → Bool
  | k, [] => k == 0 || k == 1 || k == 4
  | k, c :: cs =>
    if c = ' ' then runsOkWeak (k + 1) cs
    else (k == 0 || k == 1 || k == 4) && runsOkWeak 0 cs

/-- Scanner state corresponding to `k` pending spaces. -/
def stateOf : Nat → RunState
  | 0 => .start
  | 1 => .one
  | _ => .many

/-- A helper: on text whose space runs all have length 1 or 4 the scanner
acts as the identity, with the `k` pending spaces re-emitted in front. -/
theorem rewriteGo_fixed (l : List Char) : ∀ k, runsOkFrom k l = true →
    rewriteGo (stateOf k) l = List.replicate k ' ' ++ l := by
  induction l with
  | nil =>
    intro k h
    simp only [runsOkFrom, beq_iff_eq] at h
    subst h
    rfl
  | cons c cs ih =>
    intro k h
    by_cases hc : c = ' '
    · subst hc
      rw [runsOkFrom, if_pos rfl] at h
      have ih2 := ih (k + 1) h
      rcases k with _ | _ | j
      · simpa [stateOf, rewriteGo, List.replicate_succ] using ih2
      · simpa [stateOf, rewriteGo, List.replicate_succ] using ih2
      · rw [show stateOf (j + 1 + 1) = RunState.many from rfl]
        rw [show stateOf (j + 1 + 1 + 1) = RunState.many from rfl] at ih2
        rw [show rewriteGo RunState.many (' ' :: cs) = rewriteGo RunState.many cs from by
          simp [rewriteGo]]
        rw [ih2, List.replicate_succ']
        simp [List.replicate_succ, List.append_assoc]
    · rw [runsOkFrom, if_neg hc] at h
      rw [Bool.and_eq_true] at h
      obtain ⟨h1, h2⟩ := h
      have ih2 := ih 0 h2
      simp only [stateOf, List.replicate, List.nil_append] at ih2
      have hk : (k = 0 ∨ k = 1) ∨ k = 4 := by simpa using h1
      rw [or_assoc] at hk
      rcases hk with rfl | rfl | rfl
      · simp [stateOf, rewriteGo, hc, ih2]
      · simp [stateOf, rewriteGo, hc, ih2, List.replicate_succ]
      · simp [stateOf, rewriteGo, hc, ih2, FIELD_DELIMITER, List.replicate_succ]

/-- A helper: every maximal space run in the scanner output has length 1 or
4, except possibly a trailing run, which then also has length 1 or 4. -/
theorem rewrite_runsOkWeak (l : List Char) :
    runsOkWeak 0 (rewriteGo .start l) = true ∧
    runsOkWeak 0 (rewriteGo .one l) = true ∧
    runsOkWeak 0 (rewriteGo .many l) = true := by
  induction l with
  | nil => exact ⟨by decide, by decide, by decide⟩
  | cons c cs ih =>
    obtain ⟨ih1, ih2, ih3⟩ := ih
    by_cases hc : c = ' '
    · subst hc
      exact ⟨by simpa [rewriteGo] using ih2, by simpa [rewriteGo] using ih3,
             by simpa [rewriteGo] using ih3⟩
    · refine ⟨?_, ?_, ?_⟩
      · simp [rewriteGo, hc, runsOkWeak, ih1]
      · simp [rewriteGo, hc, runsOkWeak, ih1]
      · simp [rewriteGo, hc, FIELD_DELIMITER, runsOkWeak, ih1]

/-- A helper: a head character survives trimming when the trimmed tail is
nonempty. -/
theorem trim_end_cons_ne_nil (c : Char) (cs : List Char) (h : trim_end cs ≠ []) :
    trim_end (c :: cs) = c :: trim_end cs := by
  cases htc : trim_end cs with
  | nil => exact absurd htc h
  | cons a as =>
    conv_lhs => rw [trim_end]
    rw [htc]

/-- A helper: when the trimmed tail is empty, the head survives exactly when
it is not whitespace. -/
theorem trim_end_cons_nil (c : Char) (cs : List Char) (h : trim_end cs = []) :
    trim_end (c :: cs) = if isRustWhitespace c then [] else [c] := by
  conv_lhs => rw [trim_end]
  rw [h]

/-- A helper: trimming preserves the run bookkeeping, or empties the list. -/
theorem runsOkWeak_trim (l : List Char) : ∀ k, runsOkWeak k l = true →
    runsOkFrom k (trim_end l) = true ∨ trim_end l = [] := by
  induction l with
  | nil => intro k h; right; rfl
  | cons c cs ih =>
    intro k h
    by_cases hc : c = ' '
    · subst hc
      rw [runsOkWeak, if_pos rfl] at h
      rcases ih (k + 1) h with h1 | h1
      · have hne : trim_end cs ≠ [] := by
          intro he
          rw [he] at h1
          simp [runsOkFrom] at h1
        left
        rw [trim_end_cons_ne_nil _ _ hne, runsOkFrom, if_pos rfl]
        exact h1
      · right
        rw [trim_end_cons_nil _ _ h1]
        simp [isRustWhitespace]
    · rw [runsOkWeak, if_neg hc, Bool.and_eq_true] at h
      obtain ⟨h1, h2⟩ := h
      cases htc : trim_end cs with
      | nil =>
        by_cases hw : isRustWhitespace c
        · right
          rw [trim_end_cons_nil _ _ htc, if_pos hw]
        · left
          rw [trim_end_cons_nil _ _ htc, if_neg hw, runsOkFrom, if_neg hc]
          simpa [runsOkFrom] using h1
      | cons a as =>
        left
        rw [trim_end_cons_ne_nil _ _ (by rw [htc]; exact List.cons_ne_nil a as),
          runsOkFrom, if_neg hc, Bool.and_eq_true]
        refine ⟨h1, ?_⟩
        rcases ih 0 h2 with h3 | h3
        · exact h3
        · rw [h3] at htc; cases htc

/-- A helper: the last character of a trimmed list is never whitespace. -/
theorem trim_end_getLast (l : List Char) :
    ∀ c, (trim_end l).getLast? = some c → isRustWhitespace c = false := by
  induction l with
  | nil => intro c h; cases h
  | cons a as ih =>
    intro c h
    cases htc : trim_end as with
    | nil =>
      rw [trim_end_cons_nil _ _ htc] at h
      by_cases hw : isRustWhitespace a
      · rw [if_pos hw] at h; cases h
      · rw [if_neg hw] at h
        simp only [List.getLast?_singleton, Option.some.injEq] at h
        rw [← h]
        simpa using hw
    | cons b bs =>
      rw [trim_end_cons_ne_nil _ _ (by rw [htc]; exact List.cons_ne_nil b bs), htc,
        List.getLast?_cons_cons] at h
      exact ih c (by rw [htc]; exact h)

/-- A helper: a list whose last character is not whitespace is already
trimmed. -/
theorem trim_end_no_ws (l : List Char)
    (h : ∀ c, l.getLast? = some c → isRustWhitespace c = false) : trim_end l = l := by
  induction l with
  | nil => rfl
  | cons a as ih =>
    cases as with
    | nil =>
      have ha := h a (by simp)
      rw [trim_end_cons_nil a [] rfl, if_neg (by simp [ha])]
    | cons b bs =>
      have h2 : ∀ c, (b :: bs).getLast? = some c → isRustWhitespace c = false := by
        intro c hc
        exact h c (by rw [List.getLast?_cons_cons]; exact hc)
      have h3 := ih h2
      rw [trim_end_cons_ne_nil _ _ (by rw [h3]; exact List.cons_ne_nil b bs), h3]

/-- A helper: trimming is idempotent. -/
theorem trim_end_idem (l : List Char) : trim_end (trim_end l) = trim_end l :=
  trim_end_no_ws _ (trim_end_getLast l)

/-- A helper: rewriting then trimming a line is idempotent. -/
theorem rewrite_line_idem (l : List Char) :
    trim_end (rewrite_attr_line (trim_end (rewrite_attr_line l)))
      = trim_end (rewrite_attr_line l) := by
  rcases runsOkWeak_trim (rewriteGo .start l) 0 (rewrite_runsOkWeak l).1 with h | h
  · have hfix := rewriteGo_fixed (trim_end (rewriteGo .start l)) 0 h
    simp only [stateOf, List.replicate, List.nil_append] at hfix
    unfold rewrite_attr_line at *
    rw [hfix, trim_end_idem]
  · unfold rewrite_attr_line at *
    rw [h]
    rfl

/-- A helper: a leading space never affects "._" containment. -/
theorem containsDU_space_cons (x : List Char) : containsDU (' ' :: x) = containsDU x := by
  cases x with
  | nil => rfl
  | cons d rest => rfl

/-- A helper: a leading field delimiter never affects "._" containment. -/
theorem containsDU_delim_append (x : List Char) :
    containsDU (FIELD_DELIMITER ++ x) = containsDU x := by
  show containsDU (' ' :: ' ' :: ' ' :: ' ' :: x) = containsDU x
  rw [containsDU_space_cons, containsDU_space_cons, containsDU_space_cons,
    containsDU_space_cons]

/-- A helper: prepending any character before a non-underscore head never
affects "._" containment. -/
theorem containsDU_cons_not_underscore (c : Char) (x : List Char)
    (h : x.head? ≠ some '_') : containsDU (c :: x) = containsDU x := by
  cases x with
  | nil => rfl
  | cons d rest =>
    by_cases hd : d = '_'
    · exact absurd (by simp [hd] : (d :: rest).head? = some '_') h
    · have hdb : (d == '_') = false := beq_eq_false_iff_ne.mpr hd
      rw [show containsDU (c :: d :: rest) = ((c == '.' && d == '_') || containsDU (d :: rest))
        from rfl]
      rw [hdb, Bool.and_false, Bool.false_or]

/-- A helper: the scanner output in the in-run state starts with a space. -/
theorem rewriteGo_many_head (l : List Char) : (rewriteGo .many l).head? = some ' ' := by
  induction l with
  | nil => rfl
  | cons c cs ih =>
    by_cases hc : c = ' '
    · subst hc; simpa [rewriteGo] using ih
    · simp [rewriteGo, hc, FIELD_DELIMITER]

/-- A helper: the scanner output in the one-pending-space state starts with a
space. -/
theorem rewriteGo_one_head (l : List Char) : (rewriteGo .one l).head? = some ' ' := by
  cases l with
  | nil => rfl
  | cons c cs =>
    by_cases hc : c = ' '
    · subst hc; simpa [rewriteGo] using rewriteGo_many_head cs
    · simp [rewriteGo, hc]

/-- A helper: the scanner neither creates nor destroys "._" occurrences. -/
theorem containsDU_rewriteGo (l : List Char) :
    containsDU (rewriteGo .start l) = containsDU l ∧
    containsDU (rewriteGo .one l) = containsDU l ∧
    containsDU (rewriteGo .many l) = containsDU l := by
  induction l with
  | nil => exact ⟨rfl, rfl, rfl⟩
  | cons c cs ih =>
    obtain ⟨ih1, ih2, ih3⟩ := ih
    by_cases hc : c = ' '
    · subst hc
      refine ⟨?_, ?_, ?_⟩
      · rw [show rewriteGo .start (' ' :: cs) = rewriteGo .one cs from by simp [rewriteGo]]
        rw [ih2, containsDU_space_cons]
      · rw [show rewriteGo .one (' ' :: cs) = rewriteGo .many cs from by simp [rewriteGo]]
        rw [ih3, containsDU_space_cons]
      · rw [show rewriteGo .many (' ' :: cs) = rewriteGo .many cs from by simp [rewriteGo]]
        rw [ih3, containsDU_space_cons]
    · have key : containsDU (c :: rewriteGo .start cs) = containsDU (c :: cs) := by
        cases cs with
        | nil => rfl
        | cons d ds =>
          by_cases hd : d = ' '
          · subst hd
            have hh : (rewriteGo .start (' ' :: ds)).head? = some ' ' := by
              rw [show rewriteGo .start (' ' :: ds) = rewriteGo .one ds from by
                simp [rewriteGo]]
              exact rewriteGo_one_head ds
            rw [containsDU_cons_not_underscore c _ (by rw [hh]; decide)]
            rw [containsDU_cons_not_underscore c (' ' :: ds) (by simp)]
            exact ih1
          · rw [show rewriteGo .start (d :: ds) = d :: rewriteGo .start ds from by
              simp [rewriteGo, hd]]
            rw [show containsDU (c :: d :: rewriteGo .start ds)
              = ((c == '.' && d == '_') || containsDU (d :: rewriteGo .start ds)) from rfl]
            rw [show containsDU (c :: d :: ds)
              = ((c == '.' && d == '_') || containsDU (d :: ds)) from rfl]
            rw [show (d :: rewriteGo .start ds) = rewriteGo .start (d :: ds) from by
              simp [rewriteGo, hd]]
            rw [ih1]
      refine ⟨?_, ?_, ?_⟩
      · rw [show rewriteGo .start (c :: cs) = c :: rewriteGo .start cs from by
          simp [rewriteGo, hc]]
        exact key
      · rw [show rewriteGo .one (c :: cs) = ' ' :: c :: rewriteGo .start cs from by
          simp [rewriteGo, hc]]
        rw [containsDU_space_cons]
        exact key
      · rw [show rewriteGo .many (c :: cs) = FIELD_DELIMITER ++ c :: rewriteGo .start cs from by
          simp [rewriteGo, hc]]
        rw [containsDU_delim_append]
        exact key

/-- A helper: the trimmed list is an initial segment of the original. -/
theorem trim_end_append_suffix (l : List Char) : ∃ suf, trim_end l ++ suf = l := by
  induction l with
  | nil => exact ⟨[], rfl⟩
  | cons a as ih =>
    cases htc : trim_end as with
    | nil =>
      by_cases hw : isRustWhitespace a
      · exact ⟨a :: as, by rw [trim_end_cons_nil _ _ htc, if_pos hw]; rfl⟩
      · exact ⟨as, by rw [trim_end_cons_nil _ _ htc, if_neg hw]; rfl⟩
    | cons b bs =>
      obtain ⟨suf, hsuf⟩ := ih
      refine ⟨suf, ?_⟩
      rw [trim_end_cons_ne_nil _ _ (by rw [htc]; exact List.cons_ne_nil b bs)]
      rw [List.cons_append, hsuf]

/-- A helper: "._" containment is monotone under appending on the right. -/
theorem containsDU_append_left (x y : List Char) (h : containsDU x = true) :
    containsDU (x ++ y) = true := by
  induction x with
  | nil => simp [containsDU] at h
  | cons a as ih =>
    cases as with
    | nil => simp [containsDU] at h
    | cons b bs =>
      rw [show containsDU (a :: b :: bs) = ((a == '.' && b == '_') || containsDU (b :: bs))
        from rfl] at h
      rw [List.cons_append, List.cons_append]
      rw [show containsDU (a :: b :: (bs ++ y))
        = ((a == '.' && b == '_') || containsDU (b :: (bs ++ y))) from rfl]
      rcases Bool.or_eq_true _ _ |>.mp h with h1 | h1
      · rw [h1, Bool.true_or]
      · have := ih h1
        rw [List.cons_append] at this
        rw [this, Bool.or_true]

/-- A helper: trimming cannot create a "._" occurrence. -/
theorem containsDU_trim_end (l : List Char) (h : containsDU (trim_end l) = true) :
    containsDU l = true := by
  obtain ⟨suf, hsuf⟩ := trim_end_append_suffix l
  rw [← hsuf]
  exact containsDU_append_left _ _ h

/-- A helper: every character of the scanner output is a space or appears in
the input. -/
theorem mem_rewriteGo (l : List Char) :
    ∀ st c, c ∈ rewriteGo st l → c = ' ' ∨ c ∈ l := by
  induction l with
  | nil =>
    intro st c h
    cases st with
    | start => cases h
    | one => left; simpa [rewriteGo] using h
    | many =>
      left
      have hduf : rewriteGo RunState.many ([] : List Char) = [' ', ' ', ' ', ' '] := rfl
      rw [hduf] at h
      simp only [List.mem_cons, List.not_mem_nil, or_false] at h
      rcases h with h | h | h | h <;> exact h
  | cons a as ih =>
    intro st c h
    by_cases ha : a = ' '
    · subst ha
      cases st with
      | start =>
        simp only [rewriteGo, if_pos rfl] at h
        rcases ih .one c h with h1 | h1
        · exact .inl h1
        · exact .inr (List.mem_cons_of_mem _ h1)
      | one =>
        simp only [rewriteGo, if_pos rfl] at h
        rcases ih .many c h with h1 | h1
        · exact .inl h1
        · exact .inr (List.mem_cons_of_mem _ h1)
      | many =>
        simp only [rewriteGo, if_pos rfl] at h
        rcases ih .many c h with h1 | h1
        · exact .inl h1
        · exact .inr (List.mem_cons_of_mem _ h1)
    · cases st with
      | start =>
        simp only [rewriteGo, if_neg ha] at h
        rcases List.mem_cons.mp h with h1 | h1
        · exact .inr (h1 ▸ List.mem_cons_self _ _)
        · rcases ih .start c h1 with h2 | h2
          · exact .inl h2
          · exact .inr (List.mem_cons_of_mem _ h2)
      | one =>
        simp only [rewriteGo, if_neg ha] at h
        rcases List.mem_cons.mp h with h1 | h1
        · exact .inl h1
        · rcases List.mem_cons.mp h1 with h2 | h2
          · exact .inr (h2 ▸ List.mem_cons_self _ _)
          · rcases ih .start c h2 with h3 | h3
            · exact .inl h3
            · exact .inr (List.mem_cons_of_mem _ h3)
      | many =>
        simp only [rewriteGo, if_neg ha] at h
        rcases List.mem_append.mp h with h1 | h1
        · left
          simp only [FIELD_DELIMITER, List.mem_cons, List.not_mem_nil, or_false] at h1
          rcases h1 with h1 | h1 | h1 | h1 <;> exact h1
        · rcases List.mem_cons.mp h1 with h2 | h2
          · exact .inr (h2 ▸ List.mem_cons_self _ _)
          · rcases ih .start c h2 with h3 | h3
            · exact .inl h3
            · exact .inr (List.mem_cons_of_mem _ h3)

/-- A helper: every character surviving the trim appears in the input. -/
theorem mem_trim_end (l : List Char) : ∀ c, c ∈ trim_end l → c ∈ l := by
  intro c h
  obtain ⟨suf, hsuf⟩ := trim_end_append_suffix l
  rw [← hsuf]
  exact List.mem_append_left _ h

/-- A helper: splitting step at a newline. -/
theorem splitIncl_cons_nl (cs : List Char) :
    splitIncl ('\n' :: cs) = ['\n'] :: splitIncl cs := by
  rw [splitIncl]
  simp

/-- A helper: splitting step at a non-newline character. -/
theorem splitIncl_cons_other (c : Char) (cs : List Char) (hc : c ≠ '\n') :
    splitIncl (c :: cs) =
      match splitIncl cs with
      | [] => [[c]]
      | p :: ps => (c :: p) :: ps := by
  rw [splitIncl, if_neg hc]

/-- A helper: split-inclusive pieces are never empty. -/
theorem splitIncl_ne_nil (l : List Char) : ∀ p ∈ splitIncl l, p ≠ [] := by
  induction l with
  | nil => intro p hp; cases hp
  | cons c cs ih =>
    intro p hp
    by_cases hc : c = '\n'
    · subst hc
      rw [splitIncl_cons_nl] at hp
      rcases List.mem_cons.mp hp with h1 | h1
      · subst h1; exact List.cons_ne_nil _ _
      · exact ih p h1
    · cases hsp : splitIncl cs with
      | nil =>
        rw [splitIncl_cons_other c cs hc, hsp] at hp
        have hp' : p ∈ [[c]] := hp
        simp only [List.mem_singleton] at hp'
        subst hp'
        exact List.cons_ne_nil _ _
      | cons q qs =>
        rw [splitIncl_cons_other c cs hc, hsp] at hp
        have hp' : p ∈ (c :: q) :: qs := hp
        rcases List.mem_cons.mp hp' with h1 | h1
        · subst h1; exact List.cons_ne_nil _ _
        · exact ih p (by rw [hsp]; exact List.mem_cons_of_mem _ h1)

/-- A helper: within a split-inclusive piece a newline occurs only as the
last character. -/
theorem splitIncl_dropLast_no_nl (l : List Char) :
    ∀ p ∈ splitIncl l, ∀ c ∈ p.dropLast, c ≠ '\n' := by
  induction l with
  | nil => intro p hp; cases hp
  | cons a as ih =>
    intro p hp c hc
    by_cases ha : a = '\n'
    · subst ha
      rw [splitIncl_cons_nl] at hp
      rcases List.mem_cons.mp hp with h1 | h1
      · subst h1; simp at hc
      · exact ih p h1 c hc
    · cases hsp : splitIncl as with
      | nil =>
        rw [splitIncl_cons_other a as ha, hsp] at hp
        have hp' : p ∈ [[a]] := hp
        simp only [List.mem_singleton] at hp'
        subst hp'
        simp at hc
      | cons q qs =>
        rw [splitIncl_cons_other a as ha, hsp] at hp
        have hp' : p ∈ (a :: q) :: qs := hp
        rcases List.mem_cons.mp hp' with h1 | h1
        · subst h1
          have hq : q ≠ [] := splitIncl_ne_nil as q (by rw [hsp]; exact List.mem_cons_self _ _)
          rw [List.dropLast_cons_of_ne_nil hq] at hc
          rcases List.mem_cons.mp hc with h2 | h2
          · subst h2; exact ha
          · exact ih q (by rw [hsp]; exact List.mem_cons_self _ _) c h2
        · exact ih p (by rw [hsp]; exact List.mem_cons_of_mem _ h1) c hc

/-- A helper: trimming a piece whose interior is newline-free leaves no
newline at all. -/
theorem lineTrim_no_nl (p : List Char) (hp : ∀ c ∈ p.dropLast, c ≠ '\n') :
    ∀ c ∈ lineTrim p, c ≠ '\n' := by
  intro c hc
  unfold lineTrim at hc
  by_cases h1 : p.getLast? = some '\n'
  · rw [if_pos h1] at hc
    by_cases h2 : p.dropLast.getLast? = some '\r'
    · rw [if_pos h2] at hc
      exact hp c (List.dropLast_subset p.dropLast hc)
    · rw [if_neg h2] at hc
      exact hp c hc
  · rw [if_neg h1] at hc
    intro he
    subst he
    by_cases hpe : p = []
    · subst hpe; cases hc
    · have hdec := List.dropLast_append_getLast hpe
      rw [← hdec] at hc
      rcases List.mem_append.mp hc with h3 | h3
      · exact hp '\n' h3 rfl
      · have h4 : '\n' = p.getLast hpe := by simpa using h3
        exact h1 (by rw [List.getLast?_eq_getLast_of_ne_nil hpe, ← h4])

/-- A helper: the embedded str::lines yields newline-free lines. -/
theorem rustLines_no_nl (s : List Char) : ∀ l ∈ rustLines s, ∀ c ∈ l, c ≠ '\n' := by
  intro l hl c hc
  unfold rustLines at hl
  rcases List.mem_map.mp hl with ⟨p, hp, rfl⟩
  exact lineTrim_no_nl p (splitIncl_dropLast_no_nl s p hp) c hc

/-- A helper: trimming a terminated line that does not end in a carriage
return recovers the line. -/
theorem lineTrim_append_nl (l : List Char) (h : l.getLast? ≠ some '\r') :
    lineTrim (l ++ ['\n']) = l := by
  unfold lineTrim
  have h1 : (l ++ ['\n']).getLast? = some '\n' := by simp
  rw [if_pos h1, List.dropLast_concat, if_neg h]

/-- A helper: splitting a newline-free line with its terminator and more text
detaches exactly that line. -/
theorem splitIncl_line_append (l rest : List Char) (hl : ∀ c ∈ l, c ≠ '\n') :
    splitIncl (l ++ '\n' :: rest) = (l ++ ['\n']) :: splitIncl rest := by
  induction l with
  | nil => simpa using splitIncl_cons_nl rest
  | cons a as ih =>
    have ha : a ≠ '\n' := hl a (List.mem_cons_self _ _)
    have ih2 := ih (fun c h => hl c (List.mem_cons_of_mem _ h))
    rw [List.cons_append, splitIncl_cons_other a _ ha, ih2]
    rfl

/-- A helper: the embedded str::lines inverts joinNL on newline-free lines
with no trailing carriage return. -/
theorem rustLines_joinNL (L : List (List Char))
    (h1 : ∀ l ∈ L, ∀ c ∈ l, c ≠ '\n')
    (h2 : ∀ l ∈ L, l.getLast? ≠ some '\r') :
    rustLines (joinNL L) = L := by
  induction L with
  | nil => rfl
  | cons l ls ih =>
    rw [joinNL]
    unfold rustLines
    rw [splitIncl_line_append l (joinNL ls) (h1 l (List.mem_cons_self _ _)),
      List.map_cons, lineTrim_append_nl l (h2 l (List.mem_cons_self _ _))]
    have ih2 := ih (fun x hx => h1 x (List.mem_cons_of_mem _ hx))
      (fun x hx => h2 x (List.mem_cons_of_mem _ hx))
    unfold rustLines at ih2
    rw [ih2]

/-- A helper: splitting the rewriter output recovers exactly the processed
kept lines, one per line, in order. -/
theorem rustLines_rewrite_attr_lines (stdout : List Char) :
    rustLines (rewrite_attr_lines stdout) =
      ((rustLines stdout).filter (fun attr => !containsDU attr)).map
        (fun l => trim_end (rewrite_attr_line l)) := by
  rw [rewrite_attr_lines_eq]
  apply rustLines_joinNL
  · intro l hl c hc
    rcases List.mem_map.mp hl with ⟨l0, hl0, rfl⟩
    have hl0m : l0 ∈ rustLines stdout := List.mem_of_mem_filter hl0
    have hc1 : c ∈ rewrite_attr_line l0 := mem_trim_end _ c hc
    rcases mem_rewriteGo l0 .start c hc1 with h | h
    · subst h; decide
    · exact rustLines_no_nl stdout l0 hl0m c h
  · intro l hl
    rcases List.mem_map.mp hl with ⟨l0, hl0, rfl⟩
    intro hcon
    have hws := trim_end_getLast (rewrite_attr_line l0) '\r' hcon
    exact absurd hws (by decide)

/-- C2 counterexample input: a line whose first column has no "._" but whose
description column does. -/
def c2line : List Char := "abc  1.0  see ._private".data

/-- Modelled from the spec: the attribute-path column of a bulk-listing line
is the text before the first run of two or more spaces. -/
def firstColumn : List Char → List Char
  | [] => []
  | [c] => [c]
  | c :: d :: rest => if c = ' ' ∧ d = ' ' then [] else c :: firstColumn (d :: rest)

/-- C2 counterexample: the attribute-path column "abc" of the input line does
not contain "._", yet the rewriter drops the line (zero output lines, where
the claim requires exactly one), because the filter inspects the whole line
and the description column contains "._". -/
theorem c2_first_column_counterexample :
    containsDU (firstColumn c2line) = false ∧
    containsDU c2line = true ∧
    rewrite_attr_lines (c2line ++ ['\n']) = [] ∧
    rustLines (rewrite_attr_lines (c2line ++ ['\n'])) = [] := by
  exact ⟨by decide, by decide, by decide, by decide⟩

/-- C2 amended: the rewriter drops exactly the input lines that contain the
substring "._" anywhere in the line (not only in the attribute-path
column); every other input line yields exactly one output line, the
rewritten right-trimmed line, and output lines appear in the same relative
order as their input lines. -/
theorem c2_filter_exactly_dot_underscore_lines (stdout : List Char) :
    rustLines (rewrite_attr_lines stdout) =
      ((rustLines stdout).filter (fun attr => !containsDU attr)).map
        (fun l => trim_end (rewrite_attr_line l)) :=
  rustLines_rewrite_attr_lines stdout

/-- C4: the bulk-listing rewriter is idempotent: applying it to its own
output returns that output unchanged - no already-delimited line is
re-delimited differently and no surviving line is filtered out. -/
theorem c4_rewrite_attr_lines_idempotent (stdout : List Char) :
    rewrite_attr_lines (rewrite_attr_lines stdout) = rewrite_attr_lines stdout := by
  rw [rewrite_attr_lines_eq (rewrite_attr_lines stdout), rustLines_rewrite_attr_lines]
  rw [rewrite_attr_lines_eq stdout]
  congr 1
  have hfilter :
      (((rustLines stdout).filter (fun attr => !containsDU attr)).map
        (fun l => trim_end (rewrite_attr_line l))).filter (fun attr => !containsDU attr)
      = ((rustLines stdout).filter (fun attr => !containsDU attr)).map
        (fun l => trim_end (rewrite_attr_line l)) := by
    apply List.filter_eq_self.mpr
    intro a ha
    rcases List.mem_map.mp ha with ⟨l0, hl0, rfl⟩
    have h1 : (!containsDU l0) = true := (List.mem_filter.mp hl0).2
    have h2 : containsDU l0 = false := by simpa using h1
    have h3 : containsDU (rewrite_attr_line l0) = false := by
      rw [show rewrite_attr_line l0 = rewriteGo .start l0 from rfl,
        (containsDU_rewriteGo l0).1]
      exact h2
    have h4 : containsDU (trim_end (rewrite_attr_line l0)) = false := by
      cases h5 : containsDU (trim_end (rewrite_attr_line l0)) with
      | false => rfl
      | true =>
        rw [containsDU_trim_end _ h5] at h3
        cases h3
    simp [h4]
  rw [hfilter, List.map_map]
  apply List.map_congr_left
  intro a ha
  exact rewrite_line_idem a

/-- Witness data: a kept line used to apply the C5 theorem. -/
def c5rest : List Char := "x".data

/-- C5: FIELD_DELIMITER is distinct from a single space and from a tab;
within a line the scanner copies characters that do not open a two-space
run, keeps single spaces, and replaces every maximal run of two or more
spaces by exactly one FIELD_DELIMITER; each processed line carries no
trailing whitespace; and the rewriter output consists of the kept lines,
in order, each terminated by exactly one newline with nothing after the
final terminator. -/
theorem c5_delimiter_and_line_shape :
    (FIELD_DELIMITER ≠ [' '] ∧ FIELD_DELIMITER ≠ ['\t']) ∧
    (∀ (c : Char) (rest : List Char), c ≠ ' ' →
      rewrite_attr_line (c :: rest) = c :: rewrite_attr_line rest) ∧
    (∀ rest : List Char, rest.head? ≠ some ' ' →
      rewrite_attr_line (' ' :: rest) = ' ' :: rewrite_attr_line rest) ∧
    (∀ (n : Nat) (rest : List Char), 2 ≤ n → rest.head? ≠ some ' ' →
      rewrite_attr_line (List.replicate n ' ' ++ rest) =
        FIELD_DELIMITER ++ rewrite_attr_line rest) ∧
    (∀ (l : List Char) (c : Char),
      (trim_end (rewrite_attr_line l)).getLast? = some c → isRustWhitespace c = false) ∧
    (∀ stdout : List Char,
      rewrite_attr_lines stdout =
        joinNL (((rustLines stdout).filter (fun attr => !containsDU attr)).map
          (fun l => trim_end (rewrite_attr_line l)))) := by
  refine ⟨⟨by decide, by decide⟩, ?_, ?_, ?_,
    fun l c h => trim_end_getLast (rewrite_attr_line l) c h, rewrite_attr_lines_eq⟩
  · intro c rest hc
    simp [rewrite_attr_line, rewriteGo, hc]
  · intro rest hr
    cases rest with
    | nil => rfl
    | cons d ds =>
      have hd : d ≠ ' ' := by
        intro he
        exact hr (by simp [he])
      simp [rewrite_attr_line, rewriteGo, hd]
  · intro n rest hn hr
    obtain ⟨k, hk⟩ := Nat.le.dest hn
    subst hk
    have hrepl : List.replicate (2 + k) ' ' ++ rest
        = ' ' :: ' ' :: (List.replicate k ' ' ++ rest) := by
      rw [List.replicate_add]
      simp
    rw [hrepl]
    rw [show rewrite_attr_line (' ' :: ' ' :: (List.replicate k ' ' ++ rest))
        = rewriteGo .many (List.replicate k ' ' ++ rest) from by
      simp [rewrite_attr_line, rewriteGo]]
    rw [rewriteGo_many_spaces]
    cases rest with
    | nil => rfl
    | cons d ds =>
      have hd : d ≠ ' ' := by
        intro he
        exact hr (by simp [he])
      simp [rewrite_attr_line, rewriteGo, hd]

/-- Witness for C5: its line-level conjuncts applied at concrete inputs. -/
theorem c5_delimiter_and_line_shape_witness :
    rewrite_attr_line ('a' :: c5rest) = 'a' :: rewrite_attr_line c5rest ∧
    rewrite_attr_line (' ' :: c5rest) = ' ' :: rewrite_attr_line c5rest ∧
    rewrite_attr_line (List.replicate 3 ' ' ++ c5rest) =
      FIELD_DELIMITER ++ rewrite_attr_line c5rest ∧
    isRustWhitespace 'x' = false :=
  ⟨c5_delimiter_and_line_shape.2.1 'a' c5rest (by decide),
   c5_delimiter_and_line_shape.2.2.1 c5rest (by decide),
   c5_delimiter_and_line_shape.2.2.2.1 3 c5rest (by decide) (by decide),
   c5_delimiter_and_line_shape.2.2.2.2.1 "x ".data 'x' (by decide)⟩
